import Mathlib

/-!
# Verification of the AI-for-Trading notebook repository

A shallow embedding of the computational content of the repository's
notebooks, together with theorems settling the specification claims.

* `Lesson8_Momentum-Trading/dtype.ipynb` : `generate_positions`,
  a vectorized threshold transform on a price table.
* `Lesson8_Momentum-Trading/top_and_bottom_performing.ipynb` :
  `date_top_industries`, selecting the sectors of the top-n tickers of a row.
* `Part3_Training-Neural-Networks.ipynb` : the SGD training loop and the
  gradient-accumulation contract of the autodiff library.
* the saving-and-loading notebook : checkpoint save / `load_checkpoint`
  round trip and `load_state_dict` shape checking.

Floating-point prices are modelled as rationals; pandas `DataFrame`s are
modelled as a date index, a ticker index and a row-major grid of values.
-/

namespace Trading

/-- A pandas `DataFrame` as used in the momentum-trading notebooks:
rows are indexed by dates, columns by tickers, `data` is the row-major grid. -/
structure DataFrame (α : Type) where
  dates : List String
  tickers : List String
  data : List (List α)
deriving DecidableEq

/-- The pandas comparison `prices > c` : an elementwise strict comparison
returning a boolean frame with the same labels. -/
def df_gt (df : DataFrame ℚ) (c : ℚ) : DataFrame Bool :=
  ⟨df.dates, df.tickers, df.data.map (List.map (fun p => decide (c < p)))⟩

/-- The pandas comparison `prices < c` : an elementwise strict comparison
returning a boolean frame with the same labels. -/
def df_lt (df : DataFrame ℚ) (c : ℚ) : DataFrame Bool :=
  ⟨df.dates, df.tickers, df.data.map (List.map (fun p => decide (p < c)))⟩

/-- `.astype(int)` on a boolean frame: `True ↦ 1`, `False ↦ 0`. -/
def df_astype_int (df : DataFrame Bool) : DataFrame ℤ :=
  ⟨df.dates, df.tickers, df.data.map (List.map (fun b => if b then (1 : ℤ) else 0))⟩

/-- Scalar multiplication `k * df` of an integer frame. -/
def df_smul (k : ℤ) (df : DataFrame ℤ) : DataFrame ℤ :=
  ⟨df.dates, df.tickers, df.data.map (List.map (fun v => k * v))⟩

/-- Elementwise addition `df₁ + df₂` of two integer frames with identical
labels (the only way it is used in the notebook: both operands are derived
from the same `prices` frame, so their indices align). -/
def df_add (a b : DataFrame ℤ) : DataFrame ℤ :=
  ⟨a.dates, a.tickers, List.zipWith (List.zipWith (· + ·)) a.data b.data⟩

/-- `generate_positions` from `dtype.ipynb`:

    long_thirty = 30 * (prices > 50).astype(int)
    short_ten = -10 * (prices < 20).astype(int)
    final_position = long_thirty + short_ten
-/
def generate_positions (prices : DataFrame ℚ) : DataFrame ℤ :=
  let long_thirty := df_smul 30 (df_astype_int (df_gt prices 50))
  let short_ten := df_smul (-10) (df_astype_int (df_lt prices 20))
  df_add long_thirty short_ten

/-- `zipWith` of two maps over the same list collapses to a single map. -/
theorem zipWith_map_same {α β γ δ : Type} (f : β → γ → δ) (g : α → β) (h : α → γ)
    (l : List α) :
    List.zipWith f (l.map g) (l.map h) = l.map (fun x => f (g x) (h x)) := by
  induction l with
  | nil => rfl
  | cons a l ih => simp [ih]

/-- C1: `generate_positions` keeps the dates and tickers of its input and its
grid is the elementwise sum of `30 · indicator (price > 50)` and
`-10 · indicator (price < 20)`, both comparisons strict. -/
theorem generate_positions_spec (prices : DataFrame ℚ) :
    (generate_positions prices).dates = prices.dates ∧
    (generate_positions prices).tickers = prices.tickers ∧
    (generate_positions prices).data = prices.data.map (List.map (fun p : ℚ =>
      30 * (if 50 < p then (1 : ℤ) else 0) + (-10) * (if p < 20 then (1 : ℤ) else 0))) := by
  refine ⟨rfl, rfl, ?_⟩
  show List.zipWith (List.zipWith (· + ·))
      (((prices.data.map _).map _).map _) (((prices.data.map _).map _).map _) = _
  simp only [List.map_map]
  rw [zipWith_map_same]
  apply List.map_congr_left
  intro row _
  simp only [Function.comp_def, List.map_map]
  rw [zipWith_map_same]
  apply List.map_congr_left
  intro p _
  simp

/-- C9: every entry of the frame produced by `generate_positions` is `-10`,
`0` or `30`; since the long threshold 50 lies above the short threshold 20,
the two scaled indicators are never both nonzero at the same entry. -/
theorem generate_positions_values (prices : DataFrame ℚ) :
    ∀ row ∈ (generate_positions prices).data, ∀ v ∈ row,
      v = -10 ∨ v = 0 ∨ v = 30 := by
  intro row hrow v hv
  obtain ⟨-, -, hdata⟩ := generate_positions_spec prices
  rw [hdata] at hrow
  obtain ⟨srow, -, rfl⟩ := List.mem_map.mp hrow
  obtain ⟨p, -, rfl⟩ := List.mem_map.mp hv
  by_cases h50 : 50 < p
  · have h20 : ¬ p < 20 := by linarith
    simp [h50, h20]
  · by_cases h20 : p < 20
    · simp [h50, h20]
    · simp [h50, h20]

/-- Witness for C9 at concrete inputs: prices 55, 10 and 30 give positions
30, -10 and 0 respectively. -/
theorem generate_positions_values_witness :
    ((30 : ℤ) = -10 ∨ (30 : ℤ) = 0 ∨ (30 : ℤ) = 30) ∧
    ((-10 : ℤ) = -10 ∨ (-10 : ℤ) = 0 ∨ (-10 : ℤ) = 30) ∧
    ((0 : ℤ) = -10 ∨ (0 : ℤ) = 0 ∨ (0 : ℤ) = 30) := by
  have hp := generate_positions_values ⟨["2013-07-08"], ["A", "B", "C"], [[55, 10, 30]]⟩
  exact ⟨hp [30, -10, 0] (by decide) 30 (by decide),
    hp [30, -10, 0] (by decide) (-10) (by decide),
    hp [30, -10, 0] (by decide) 0 (by decide)⟩

/-! ## `top_and_bottom_performing.ipynb` : `date_top_industries` -/

/-- `prices.loc[date]` : the row of `date` as a pandas `Series`, pairing each
ticker with its price; `none` models the `KeyError` raised when the date is
absent from the index. -/
def DataFrame.loc {α : Type} (df : DataFrame α) (date : String) :
    Option (List (String × α)) :=
  match df.dates.findIdx? (· = date) with
  | some i => (df.data.get? i).map (fun row => df.tickers.zip row)
  | none => none

/-- The descending comparison used by `Series.nlargest`: `p` may come before
`q` when its value is at least `q`'s. -/
def val_ge (p q : String × ℚ) : Prop := q.2 ≤ p.2

instance : DecidableRel val_ge := fun p q => inferInstanceAs (Decidable (q.2 ≤ p.2))

/-- `Series.nlargest(n)` (pandas, default `keep='first'`): stable descending
sort of the series, then the first `n` entries, so among equal values the
entry occurring first keeps priority.  `List.insertionSort` is a stable sort,
inserting each element before the later-occurring elements it ties with. -/
def nlargest (n : ℕ) (s : List (String × ℚ)) : List (String × ℚ) :=
  (s.insertionSort val_ge).take n

/-- `sector.loc[keys]` : look up each label of `keys` in the series, in
order; `none` models the `KeyError` raised when a label is missing. -/
def series_loc {α : Type} (s : List (String × α)) : List String → Option (List α)
  | [] => some []
  | k :: keys =>
    match s.lookup k, series_loc s keys with
    | some v, some vs => some (v :: vs)
    | _, _ => none

/-- `date_top_industries` from `top_and_bottom_performing.ipynb`:

    top_industries = set(sector.loc[prices.loc[date].nlargest(top_n).index])
-/
def date_top_industries (prices : DataFrame ℚ) (sector : List (String × String))
    (date : String) (top_n : ℕ) : Option (Finset String) :=
  match prices.loc date with
  | none => none
  | some row =>
    match series_loc sector ((nlargest top_n row).map Prod.fst) with
    | none => none
    | some labels => some labels.toFinset

/-- The order the spec describes on position-tagged entries: larger value
first, and among equal values the smaller (earlier) original position first. -/
def lex_ge (a b : ℕ × (String × ℚ)) : Prop :=
  b.2.2 < a.2.2 ∨ (a.2.2 = b.2.2 ∧ a.1 ≤ b.1)

instance : DecidableRel lex_ge :=
  fun a b => inferInstanceAs (Decidable (b.2.2 < a.2.2 ∨ (a.2.2 = b.2.2 ∧ a.1 ≤ b.1)))

/-- The spec's description of the selection made by `nlargest`: tag every
entry of the row with its column position, sort by value descending with ties
broken towards the earliest position, and keep the first `top_n` entries. -/
def top_n_first (n : ℕ) (row : List (String × ℚ)) : List (String × ℚ) :=
  ((row.enum.insertionSort lex_ge).take n).map Prod.snd

/-- Every position tag produced by `enumFrom k` is at least `k`. -/
theorem le_fst_of_mem_enumFrom {α : Type} {l : List α} {k : ℕ}
    {p : ℕ × α} (h : p ∈ l.enumFrom k) : k ≤ p.1 := by
  induction l generalizing k with
  | nil => simp [List.enumFrom] at h
  | cons a l ih =>
    simp only [List.enumFrom, List.mem_cons] at h
    rcases h with rfl | h
    · exact le_refl _
    · exact Nat.le_of_succ_le (ih h)

/-- Inserting a position-tagged entry whose tag is below every tag of the
list agrees (after dropping tags) with inserting the bare entry: the
lexicographic tie-break never fires against later positions. -/
theorem orderedInsert_lex_snd (a : String × ℚ) :
    ∀ (L : List (ℕ × (String × ℚ))) (k : ℕ), (∀ p ∈ L, k < p.1) →
      (L.orderedInsert lex_ge (k, a)).map Prod.snd =
        (L.map Prod.snd).orderedInsert val_ge a := by
  intro L
  induction L with
  | nil => intro k _; rfl
  | cons q L ih =>
    intro k hk
    have hklt : k < q.1 := hk q (List.mem_cons_self q L)
    by_cases hle : val_ge a q.2
    · have hlex : lex_ge (k, a) q := by
        rcases lt_or_eq_of_le hle with hlt | heq
        · exact Or.inl hlt
        · exact Or.inr ⟨heq.symm, Nat.le_of_lt hklt⟩
      simp [List.orderedInsert, hlex, hle]
    · have hlex : ¬ lex_ge (k, a) q := by
        intro hcon
        rcases hcon with hlt | ⟨heq, -⟩
        · exact hle (le_of_lt hlt)
        · exact hle (le_of_eq heq.symm)
      simp only [List.orderedInsert, hlex, if_false, hle, List.map_cons]
      rw [ih k (fun p hp => hk p (List.mem_cons_of_mem q hp))]

/-- Dropping the position tags from the lexicographic sort of a tagged list
gives the stable descending sort of the untagged list. -/
theorem map_snd_insertionSort_enumFrom (l : List (String × ℚ)) :
    ∀ k : ℕ, ((l.enumFrom k).insertionSort lex_ge).map Prod.snd =
      l.insertionSort val_ge := by
  induction l with
  | nil => intro k; rfl
  | cons a l ih =>
    intro k
    show ((List.orderedInsert lex_ge (k, a)
        ((l.enumFrom (k + 1)).insertionSort lex_ge))).map Prod.snd = _
    rw [orderedInsert_lex_snd a _ k (fun p hp => Nat.lt_of_succ_le
      (le_fst_of_mem_enumFrom ((List.mem_insertionSort lex_ge).mp hp))), ih (k + 1)]
    rfl

/-- The library's `nlargest` computes exactly the spec's
position-tie-broken top-`n` selection. -/
theorem nlargest_eq_top_n_first (n : ℕ) (row : List (String × ℚ)) :
    nlargest n row = top_n_first n row := by
  unfold nlargest top_n_first
  rw [List.map_take, List.enum, map_snd_insertionSort_enumFrom row 0]

/-- `series_loc` succeeds and returns the mapped labels when every requested
key is present. -/
theorem series_loc_eq_map {α : Type} (s : List (String × α)) (lab : String → α) :
    ∀ keys : List String, (∀ k ∈ keys, s.lookup k = some (lab k)) →
      series_loc s keys = some (keys.map lab) := by
  intro keys
  induction keys with
  | nil => intro _; rfl
  | cons k keys ih =>
    intro h
    have hk := h k (List.mem_cons_self k keys)
    have ht := ih (fun k' hk' => h k' (List.mem_cons_of_mem k hk'))
    simp [series_loc, hk, ht]

/-- Entries selected by `nlargest` come from the row itself. -/
theorem mem_of_mem_nlargest {n : ℕ} {row : List (String × ℚ)}
    {p : String × ℚ} (h : p ∈ nlargest n row) : p ∈ row :=
  (List.mem_insertionSort val_ge).mp ((List.take_sublist n _).subset h)

/-- C2: when the date is present and the sector series covers the row's
tickers, `date_top_industries` returns exactly the de-duplicated set of
sector labels of the spec's top-`top_n` selection (largest prices, ties
towards the first column). -/
theorem date_top_industries_spec (prices : DataFrame ℚ)
    (sector : List (String × String)) (date : String) (top_n : ℕ)
    (row : List (String × ℚ)) (lab : String → String)
    (hrow : prices.loc date = some row)
    (hsec : ∀ p ∈ row, sector.lookup p.1 = some (lab p.1))
    (_htop : 1 ≤ top_n) :
    date_top_industries prices sector date top_n =
      some (((top_n_first top_n row).map (fun p => lab p.1)).toFinset) := by
  have hkeys : ∀ k ∈ (nlargest top_n row).map Prod.fst,
      sector.lookup k = some (lab k) := by
    intro k hk
    obtain ⟨p, hp, rfl⟩ := List.mem_map.mp hk
    exact hsec p (mem_of_mem_nlargest hp)
  simp only [date_top_industries, hrow]
  rw [series_loc_eq_map sector lab _ hkeys, nlargest_eq_top_n_first]
  simp [List.map_map, Function.comp_def]

/-- Input data of the quiz example in `top_and_bottom_performing.ipynb`. -/
def quiz_prices : DataFrame ℚ :=
  ⟨["2013-07-08", "2013-07-09"], ["A", "B", "C", "D", "E"],
    [[2, 2, 7, 2, 6], [5, 3, 6, 7, 5]]⟩

/-- Sector series of the quiz example. -/
def quiz_sector : List (String × String) :=
  [("A", "Utilities"), ("B", "Health Care"), ("C", "Real Estate"),
    ("D", "Real Estate"), ("E", "Information Technology")]

/-- The 2013-07-09 row of the quiz prices. -/
def quiz_row : List (String × ℚ) :=
  [("A", 5), ("B", 3), ("C", 6), ("D", 7), ("E", 5)]

/-- The sector label of each quiz ticker, as a total function. -/
def quiz_lab (t : String) : String := (quiz_sector.lookup t).getD ""

/-- Witness for C2 on the quiz data. -/
theorem date_top_industries_spec_witness :
    date_top_industries quiz_prices quiz_sector "2013-07-09" 3 =
      some (((top_n_first 3 quiz_row).map (fun p => quiz_lab p.1)).toFinset) :=
  date_top_industries_spec quiz_prices quiz_sector "2013-07-09" 3 quiz_row
    quiz_lab (by decide) (by decide) (by decide)

/-- C6: on the fixed quiz example with `top_n = 3` the function returns
exactly `{"Utilities", "Real Estate"}`; the tickers selected are `D`, `C`
and then `A` (not `E`, which ties with `A` at price 5 but occurs later), so
`"Information Technology"` is excluded. -/
theorem date_top_industries_quiz :
    date_top_industries quiz_prices quiz_sector "2013-07-09" 3 =
      some ({"Utilities", "Real Estate"} : Finset String) ∧
    (nlargest 3 quiz_row).map Prod.fst = ["D", "C", "A"] := by
  constructor
  · have h1 : date_top_industries quiz_prices quiz_sector "2013-07-09" 3 =
        some (["Real Estate", "Real Estate", "Utilities"] : List String).toFinset := rfl
    rw [h1]
    congr 1
    ext x
    simp only [List.mem_toFinset, List.mem_cons, List.not_mem_nil, or_false,
      Finset.mem_insert, Finset.mem_singleton]
    tauto
  · decide

/-- C10: the returned set has at most `min top_n (#tickers)` labels, each of
its elements is the sector of some ticker of the row, and when `top_n` is at
least the number of tickers the function succeeds with the sectors of all
tickers. -/
theorem date_top_industries_bounds (prices : DataFrame ℚ)
    (sector : List (String × String)) (date : String) (top_n : ℕ)
    (row : List (String × ℚ)) (lab : String → String)
    (hrow : prices.loc date = some row)
    (hsec : ∀ p ∈ row, sector.lookup p.1 = some (lab p.1)) :
    ∃ S, date_top_industries prices sector date top_n = some S ∧
      S.card ≤ min top_n row.length ∧
      (∀ x ∈ S, ∃ p ∈ row, lab p.1 = x) ∧
      (row.length ≤ top_n → S = (row.map (fun p => lab p.1)).toFinset) := by
  have hkeys : ∀ k ∈ (nlargest top_n row).map Prod.fst,
      sector.lookup k = some (lab k) := by
    intro k hk
    obtain ⟨p, hp, rfl⟩ := List.mem_map.mp hk
    exact hsec p (mem_of_mem_nlargest hp)
  refine ⟨(((nlargest top_n row).map Prod.fst).map lab).toFinset, ?_, ?_, ?_, ?_⟩
  · simp only [date_top_industries, hrow]
    rw [series_loc_eq_map sector lab _ hkeys]
  · calc (((nlargest top_n row).map Prod.fst).map lab).toFinset.card
        ≤ (((nlargest top_n row).map Prod.fst).map lab).length :=
          List.toFinset_card_le _
      _ = (nlargest top_n row).length := by simp
      _ ≤ min top_n row.length := by
          simp [nlargest, List.length_take, List.length_insertionSort]
  · intro x hx
    rw [List.mem_toFinset] at hx
    obtain ⟨k, hk, rfl⟩ := List.mem_map.mp hx
    obtain ⟨p, hp, rfl⟩ := List.mem_map.mp hk
    exact ⟨p, mem_of_mem_nlargest hp, rfl⟩
  · intro hlen
    have htake : nlargest top_n row = row.insertionSort val_ge := by
      unfold nlargest
      exact List.take_of_length_le (by simpa [List.length_insertionSort] using hlen)
    have hperm : List.Perm (((row.insertionSort val_ge).map Prod.fst).map lab)
        ((row.map Prod.fst).map lab) :=
      ((List.perm_insertionSort val_ge row).map Prod.fst).map lab
    rw [htake, List.toFinset_eq_of_perm _ _ hperm]
    simp [List.map_map, Function.comp_def]

/-- Witness for C10 on the quiz data with `top_n = 7`, larger than the number
of tickers. -/
theorem date_top_industries_bounds_witness :
    ∃ S, date_top_industries quiz_prices quiz_sector "2013-07-09" 7 = some S ∧
      S.card ≤ min 7 quiz_row.length ∧
      (∀ x ∈ S, ∃ p ∈ quiz_row, quiz_lab p.1 = x) ∧
      (quiz_row.length ≤ 7 → S = (quiz_row.map (fun p => quiz_lab p.1)).toFinset) :=
  date_top_industries_bounds quiz_prices quiz_sector "2013-07-09" 7 quiz_row
    quiz_lab (by decide) (by decide)

/-! ## Purity of the two quiz functions

Every pandas call the two functions make (`>`, `<`, `astype`, `*`, `+`,
`.loc`, `nlargest`, `set`) returns a freshly allocated object, as the
library documents; none is an in-place operation.  The `_state` variants
below thread the argument objects through the call explicitly, returning
them alongside the result, so that non-mutation and repeatability are
recorded as theorems. -/

/-- `generate_positions` with its `prices` argument threaded through. -/
def generate_positions_state (st : DataFrame ℚ) : DataFrame ℤ × DataFrame ℚ :=
  let long_thirty := df_smul 30 (df_astype_int (df_gt st 50))
  let short_ten := df_smul (-10) (df_astype_int (df_lt st 20))
  (df_add long_thirty short_ten, st)

/-- `date_top_industries` with its `prices` and `sector` arguments threaded
through. -/
def date_top_industries_state (st : DataFrame ℚ × List (String × String))
    (date : String) (top_n : ℕ) :
    Option (Finset String) × (DataFrame ℚ × List (String × String)) :=
  (date_top_industries st.1 st.2 date top_n, st)

/-- C8: both quiz functions leave their input tables unchanged, agree with
their pure descriptions, and calling either a second time on the state left
by the first call returns the same result. -/
theorem quiz_functions_pure (prices : DataFrame ℚ)
    (sector : List (String × String)) (date : String) (top_n : ℕ) :
    (generate_positions_state prices).2 = prices ∧
    (generate_positions_state prices).1 = generate_positions prices ∧
    (generate_positions_state ((generate_positions_state prices).2)).1 =
      (generate_positions_state prices).1 ∧
    (date_top_industries_state (prices, sector) date top_n).2 = (prices, sector) ∧
    (date_top_industries_state (prices, sector) date top_n).1 =
      date_top_industries prices sector date top_n ∧
    (date_top_industries_state
        ((date_top_industries_state (prices, sector) date top_n).2) date top_n).1 =
      (date_top_industries_state (prices, sector) date top_n).1 :=
  ⟨rfl, rfl, rfl, rfl, rfl, rfl⟩

/-! ## `Part3_Training-Neural-Networks.ipynb` : the training loop

The model's parameters and their gradients are flattened into lists of
rationals.  `loss.backward()` is modelled from the spec as the library
contract the spec flags: the gradients a pass computes are *added* to the
stored gradients, until `optimizer.zero_grad()` resets them to zero.
`optimizer.step()` is one SGD update `p ← p - lr · g`. -/

/-- The parameters and stored gradients the optimizer works on. -/
structure SGDState where
  params : List ℚ
  grads : List ℚ
deriving DecidableEq

/-- Modelled from the spec: `optimizer.zero_grad()` — resets the stored
gradient of every parameter to zero (`torch` is not part of this
repository). -/
def zero_grad (s : SGDState) : SGDState :=
  ⟨s.params, s.grads.map (fun _ => 0)⟩

/-- Modelled from the spec: `loss.backward()` — `g` is the gradient this
pass computes; it is *added* to the stored gradients ("gradients are
additive across calls until an explicit reset"). -/
def backward (g : List ℚ) (s : SGDState) : SGDState :=
  ⟨s.params, s.grads.zipWith (· + ·) g⟩

/-- Modelled from the spec: `optimizer.step()` for `optim.SGD` — one
gradient-descent update of every parameter from its stored gradient. -/
def sgd_step (lr : ℚ) (s : SGDState) : SGDState :=
  ⟨s.params.zipWith (fun p g => p - lr * g) s.grads, s.grads⟩

/-- Adding a pass's gradients onto zeroed gradients of the same length
yields exactly that pass's gradients. -/
theorem zipWith_add_map_zero (l g : List ℚ) (h : g.length = l.length) :
    (l.map (fun _ => (0 : ℚ))).zipWith (· + ·) g = g := by
  induction l generalizing g with
  | nil => cases g with
    | nil => rfl
    | cons x g => simp at h
  | cons x l ih => cases g with
    | nil => simp at h
    | cons y g =>
      simp only [List.length_cons, Nat.succ.injEq] at h
      show (0 + y) :: (l.map (fun _ => (0 : ℚ))).zipWith (· + ·) g = y :: g
      rw [zero_add, ih g h]

/-- C4: gradients are additive across backward passes until an explicit
reset — two backward passes without clearing leave each gradient equal to
the sum of the gradients each pass alone would produce, `zero_grad` resets
every gradient to zero, and a backward pass after a reset yields exactly
that single pass's gradients. -/
theorem gradient_accumulation (s : SGDState) (g₁ g₂ : List ℚ)
    (h₁ : g₁.length = s.grads.length) (h₂ : g₂.length = s.grads.length) :
    (backward g₂ (backward g₁ (zero_grad s))).grads =
      ((backward g₁ (zero_grad s)).grads).zipWith (· + ·)
        ((backward g₂ (zero_grad s)).grads) ∧
    (∀ x ∈ (zero_grad s).grads, x = 0) ∧
    (backward g₁ (zero_grad s)).grads = g₁ := by
  have hz₁ : (s.grads.map (fun _ => (0 : ℚ))).zipWith (· + ·) g₁ = g₁ :=
    zipWith_add_map_zero s.grads g₁ h₁
  have hz₂ : (s.grads.map (fun _ => (0 : ℚ))).zipWith (· + ·) g₂ = g₂ :=
    zipWith_add_map_zero s.grads g₂ h₂
  refine ⟨?_, ?_, ?_⟩
  · show ((s.grads.map _).zipWith (· + ·) g₁).zipWith (· + ·) g₂ = _
    rw [hz₁]
    show g₁.zipWith (· + ·) g₂ = (((s.grads.map _).zipWith (· + ·) g₁)).zipWith (· + ·)
      ((s.grads.map _).zipWith (· + ·) g₂)
    rw [hz₁, hz₂]
  · intro x hx
    obtain ⟨-, -, rfl⟩ := List.mem_map.mp hx
    rfl
  · exact hz₁

/-- Witness for C4 with one parameter, starting gradient 5 and
pass gradients 2 and 3. -/
theorem gradient_accumulation_witness :
    (backward [3] (backward [2] (zero_grad ⟨[1], [5]⟩))).grads =
      ((backward [2] (zero_grad ⟨[1], [5]⟩)).grads).zipWith (· + ·)
        ((backward [3] (zero_grad ⟨[1], [5]⟩)).grads) ∧
    (∀ x ∈ (zero_grad (⟨[1], [5]⟩ : SGDState)).grads, x = 0) ∧
    (backward [2] (zero_grad ⟨[1], [5]⟩)).grads = [2] :=
  gradient_accumulation ⟨[1], [5]⟩ [2] [3] (by decide) (by decide)

/-- The observable actions of one iteration of the training loop, tagged
with the mini-batch they act on. -/
inductive TrainEvent (β : Type) where
  | zero_grad : TrainEvent β
  | forward : β → TrainEvent β
  | loss : β → TrainEvent β
  | backward : β → TrainEvent β
  | step : TrainEvent β
deriving DecidableEq

/-- One iteration of the inner loop of `Part3`, emitting one event per
statement executed, in execution order:

    optimizer.zero_grad()
    output = model.forward(images)
    loss = criterion(output, labels)
    loss.backward()
    optimizer.step()
    running_loss += loss.item()
-/
def run_batch {β : Type} (forwardFn : List ℚ → β → List ℚ)
    (criterion : List ℚ → β → ℚ) (gradient : List ℚ → β → List ℚ) (lr : ℚ)
    (sl : SGDState × ℚ) (b : β) : (SGDState × ℚ) × List (TrainEvent β) :=
  let (s₁, e₁) := (zero_grad sl.1, (TrainEvent.zero_grad : TrainEvent β))
  let (out, e₂) := (forwardFn s₁.params b, TrainEvent.forward b)
  let (l, e₃) := (criterion out b, TrainEvent.loss b)
  let (s₂, e₄) := (backward (gradient s₁.params b) s₁, TrainEvent.backward b)
  let (s₃, e₅) := (sgd_step lr s₂, (TrainEvent.step : TrainEvent β))
  ((s₃, sl.2 + l), [e₁, e₂, e₃, e₄, e₅])

/-- One epoch: `running_loss = 0`, then the inner `for images, labels in
trainloader` loop over every mini-batch in order, accumulating the emitted
events. -/
def run_epoch {β : Type} (forwardFn : List ℚ → β → List ℚ)
    (criterion : List ℚ → β → ℚ) (gradient : List ℚ → β → List ℚ) (lr : ℚ)
    (s : SGDState) (batches : List β) : (SGDState × ℚ) × List (TrainEvent β) :=
  batches.foldl (fun acc b =>
    let r := run_batch forwardFn criterion gradient lr acc.1 b
    (r.1, acc.2 ++ r.2)) ((s, 0), ([] : List (TrainEvent β)))

/-- The outer `for e in range(epochs)` loop, also collecting the per-epoch
printed average `running_loss / len(trainloader)`. -/
def run_training {β : Type} (forwardFn : List ℚ → β → List ℚ)
    (criterion : List ℚ → β → ℚ) (gradient : List ℚ → β → List ℚ) (lr : ℚ) :
    ℕ → SGDState → List β → SGDState × List (TrainEvent β) × List ℚ
  | 0, s, _ => (s, [], [])
  | e + 1, s, batches =>
    let r := run_epoch forwardFn criterion gradient lr s batches
    let rest := run_training forwardFn criterion gradient lr e r.1.1 batches
    (rest.1, r.2 ++ rest.2.1, r.1.2 / (batches.length : ℚ) :: rest.2.2)

/-- The step sequence the claim prescribes for one mini-batch. -/
def batch_trace {β : Type} (b : β) : List (TrainEvent β) :=
  [TrainEvent.zero_grad, TrainEvent.forward b, TrainEvent.loss b,
    TrainEvent.backward b, TrainEvent.step]

/-- The fold of one epoch appends, for each mini-batch in order, exactly the
five-event sequence of one training iteration. -/
theorem run_epoch_trace_aux {β : Type} (forwardFn : List ℚ → β → List ℚ)
    (criterion : List ℚ → β → ℚ) (gradient : List ℚ → β → List ℚ) (lr : ℚ) :
    ∀ (batches : List β) (st : SGDState × ℚ) (tr : List (TrainEvent β)),
      (batches.foldl (fun acc b =>
        let r := run_batch forwardFn criterion gradient lr acc.1 b
        (r.1, acc.2 ++ r.2)) (st, tr)).2 = tr ++ batches.flatMap batch_trace := by
  intro batches
  induction batches with
  | nil => intro st tr; simp
  | cons b bs ih =>
    intro st tr
    rw [List.foldl_cons, ih]
    simp [batch_trace, run_batch]

/-- One epoch of the loop emits, mini-batch by mini-batch in loader order,
the five events of one training iteration. -/
theorem run_epoch_trace {β : Type} (forwardFn : List ℚ → β → List ℚ)
    (criterion : List ℚ → β → ℚ) (gradient : List ℚ → β → List ℚ) (lr : ℚ)
    (s : SGDState) (batches : List β) :
    (run_epoch forwardFn criterion gradient lr s batches).2 =
      batches.flatMap batch_trace := by
  unfold run_epoch
  rw [run_epoch_trace_aux]
  simp

/-- C7: the training loop performs, for every epoch and within it for every
mini-batch of the training set in order, exactly the sequence clear
gradients → forward pass → loss computation → backward pass → optimizer
step, once per mini-batch; one epoch is one full pass over all
mini-batches. -/
theorem training_loop_trace {β : Type} (forwardFn : List ℚ → β → List ℚ)
    (criterion : List ℚ → β → ℚ) (gradient : List ℚ → β → List ℚ) (lr : ℚ)
    (epochs : ℕ) (s₀ : SGDState) (batches : List β) :
    (run_training forwardFn criterion gradient lr epochs s₀ batches).2.1 =
      List.flatten (List.replicate epochs (batches.flatMap batch_trace)) := by
  induction epochs generalizing s₀ with
  | zero => rfl
  | succ e ih =>
    show ((run_epoch forwardFn criterion gradient lr s₀ batches).2 ++
      (run_training forwardFn criterion gradient lr e _ batches).2.1) = _
    rw [ih, run_epoch_trace]
    simp [List.replicate_succ]

/-! ## The saving-and-loading notebook: checkpoints

`fc_model.Network` is imported by the notebook but its file is not part of
this repository, and `torch.save` / `torch.load` / `load_state_dict` are
library calls, so this part is modelled from the spec: a fully-connected
network is an ordered list of linear layers (chained hidden layers plus an
output layer), its state dict is the ordered mapping from parameter name to
weight/bias array, and serialization is the host library's generic,
information-preserving object serialization.  Parameter names
`hidden_layers.{i}.weight`, `hidden_layers.{i}.bias`, `output.weight`,
`output.bias` are modelled by the isomorphic structured key type `PKey`. -/

/-- A parameter array: its dimensions and flattened values. -/
structure Tensor where
  shape : List ℕ
  vals : List ℚ
deriving DecidableEq

/-- One `nn.Linear(in_features, out_features)` module with its weight and
bias parameters. -/
structure Linear where
  in_features : ℕ
  out_features : ℕ
  weight : Tensor
  bias : Tensor
deriving DecidableEq

/-- Modelled from the spec: `fc_model.Network` — input size, output size,
the chained hidden `nn.Linear` layers and the output `nn.Linear` layer. -/
structure Network where
  input_size : ℕ
  output_size : ℕ
  hidden_layers : List Linear
  output : Linear
deriving DecidableEq

/-- The state-dict parameter names, as printed by the notebook:
`hidden_layers.{i}.weight`, `hidden_layers.{i}.bias`, `output.weight`,
`output.bias`. -/
inductive PKey where
  | hweight : ℕ → PKey
  | hbias : ℕ → PKey
  | oweight : PKey
  | obias : PKey
deriving DecidableEq

/-- The hidden-layer part of `model.state_dict()`: the parameters of the
`i`-th hidden layer under keys `hidden_layers.{i}.weight` and
`hidden_layers.{i}.bias`, module by module in order. -/
def hidden_sd : ℕ → List Linear → List (PKey × Tensor)
  | _, [] => []
  | k, lin :: ls =>
    (PKey.hweight k, lin.weight) :: (PKey.hbias k, lin.bias) :: hidden_sd (k + 1) ls

/-- `model.state_dict()`: the ordered mapping from parameter name to its
array, hidden layers first, then the output layer. -/
def state_dict (m : Network) : List (PKey × Tensor) :=
  hidden_sd 0 m.hidden_layers ++
    [(PKey.oweight, m.output.weight), (PKey.obias, m.output.bias)]

/-- A freshly constructed `nn.Linear(nin, nout)`: weight of shape
`[nout, nin]` and bias of shape `[nout]` (initial values irrelevant here,
modelled as zeros). -/
def mkLinear (nin nout : ℕ) : Linear :=
  ⟨nin, nout, ⟨[nout, nin], List.replicate (nout * nin) 0⟩,
    ⟨[nout], List.replicate nout 0⟩⟩

/-- Modelled from the spec: `fc_model.Network(input_size, output_size,
hidden_layers)` — hidden linear layers chained
`input_size → h₀ → h₁ → ⋯`, and an output layer from the last hidden width
to `output_size`. -/
def Network.build (inp out : ℕ) (hidden : List ℕ) : Network :=
  ⟨inp, out, ((inp :: hidden).zip hidden).map (fun p => mkLinear p.1 p.2),
    mkLinear (hidden.getLastD inp) out⟩

/-- The hidden layers of a model after copying in checkpoint parameters:
each layer keeps its architecture and takes the checkpoint tensor stored
under its own parameter names. -/
def set_hidden : ℕ → List Linear → List (PKey × Tensor) → List Linear
  | _, [], _ => []
  | k, lin :: ls, sd =>
    ⟨lin.in_features, lin.out_features,
      (sd.lookup (PKey.hweight k)).getD lin.weight,
      (sd.lookup (PKey.hbias k)).getD lin.bias⟩ :: set_hidden (k + 1) ls sd

/-- The parameter copy performed by a successful `load_state_dict`: every
parameter of the model is replaced by the checkpoint tensor of its name. -/
def set_params (m : Network) (sd : List (PKey × Tensor)) : Network :=
  ⟨m.input_size, m.output_size, set_hidden 0 m.hidden_layers sd,
    ⟨m.output.in_features, m.output.out_features,
      (sd.lookup PKey.oweight).getD m.output.weight,
      (sd.lookup PKey.obias).getD m.output.bias⟩⟩

/-- The parameters whose dimensions in the model differ from their
dimensions in the checkpoint (or are missing from it) — the error list
`load_state_dict` collects while copying. -/
def sd_shape_errors (m : Network) (sd : List (PKey × Tensor)) : List PKey :=
  (state_dict m).filterMap (fun p =>
    match sd.lookup p.1 with
    | some t => if t.shape = p.2.shape then none else some p.1
    | none => some p.1)

/-- Modelled from the spec: `model.load_state_dict(state_dict)` (strict) —
while copying each parameter, a mismatch between the dimensions in the model
and the dimensions in the checkpoint is collected as an error; if any error
occurred a `RuntimeError` is raised, otherwise all parameters are copied. -/
def load_state_dict (m : Network) (sd : List (PKey × Tensor)) :
    Except String Network :=
  if (sd_shape_errors m sd).isEmpty then Except.ok (set_params m sd)
  else Except.error "RuntimeError: Error(s) in loading state_dict for Network"

/-- The checkpoint dictionary built by the notebook:

    checkpoint = {'input_size': 784,
                  'output_size': 10,
                  'hidden_layers': [each.out_features for each in model.hidden_layers],
                  'state_dict': model.state_dict()}
-/
structure Checkpoint where
  input_size : ℕ
  output_size : ℕ
  hidden_layers : List ℕ
  state_dict : List (PKey × Tensor)
deriving DecidableEq

/-- The checkpoint of a model. -/
def checkpoint (m : Network) : Checkpoint :=
  ⟨m.input_size, m.output_size, m.hidden_layers.map Linear.out_features,
    state_dict m⟩

/-- Modelled from the spec: `torch.save` — the host library's generic object
serialization, which preserves the saved mapping. -/
def torch_save (c : Checkpoint) : Checkpoint := c

/-- Modelled from the spec: `torch.load` — deserialization, inverse of
`torch_save`. -/
def torch_load (c : Checkpoint) : Checkpoint := c

/-- `load_checkpoint` from the notebook:

    def load_checkpoint(filepath):
        checkpoint = torch.load(filepath)
        model = fc_model.Network(checkpoint['input_size'],
                                 checkpoint['output_size'],
                                 checkpoint['hidden_layers'])
        model.load_state_dict(checkpoint['state_dict'])
        return model
-/
def load_checkpoint (file : Checkpoint) : Except String Network :=
  let c := torch_load file
  let m := Network.build c.input_size c.output_size c.hidden_layers
  load_state_dict m c.state_dict

/-- A model whose parameter shapes are the ones a freshly built network of
its architecture would have — true of every network actually constructed by
`fc_model.Network`. -/
def WellFormed (m : Network) : Prop :=
  (state_dict (Network.build m.input_size m.output_size
      (m.hidden_layers.map Linear.out_features))).map (fun p => (p.1, p.2.shape)) =
    (state_dict m).map (fun p => (p.1, p.2.shape))

/-- Copying checkpoint tensors into the hidden layers replaces, entry by
entry, each named parameter by the checkpoint tensor of its name. -/
theorem hidden_sd_set_hidden (sd : List (PKey × Tensor)) :
    ∀ (ls : List Linear) (k : ℕ),
      hidden_sd k (set_hidden k ls sd) =
        (hidden_sd k ls).map (fun q => (q.1, (sd.lookup q.1).getD q.2)) := by
  intro ls
  induction ls with
  | nil => intro k; rfl
  | cons lin ls ih =>
    intro k
    simp only [set_hidden, hidden_sd, List.map_cons, ih (k + 1)]

/-- `set_params` updates every parameter of the state dict to the checkpoint
tensor stored under its name. -/
theorem state_dict_set_params (m : Network) (sd : List (PKey × Tensor)) :
    state_dict (set_params m sd) =
      (state_dict m).map (fun q => (q.1, (sd.lookup q.1).getD q.2)) := by
  simp only [state_dict, set_params, List.map_append, hidden_sd_set_hidden,
    List.map_cons, List.map_nil]

/-- C5: `load_state_dict` raises the library's shape-mismatch `RuntimeError`
whenever some parameter's dimensions in the model differ from its dimensions
in the checkpoint, and succeeds when every parameter's shape matches,
updating each of the model's parameters to the checkpoint value of its
name. -/
theorem load_state_dict_spec (m : Network) (sd : List (PKey × Tensor)) :
    ((∃ p ∈ state_dict m, ∃ t, sd.lookup p.1 = some t ∧ t.shape ≠ p.2.shape) →
      load_state_dict m sd =
        Except.error "RuntimeError: Error(s) in loading state_dict for Network") ∧
    ((∀ p ∈ state_dict m, ∃ t, sd.lookup p.1 = some t ∧ t.shape = p.2.shape) →
      load_state_dict m sd = Except.ok (set_params m sd) ∧
        state_dict (set_params m sd) =
          (state_dict m).map (fun q => (q.1, (sd.lookup q.1).getD q.2))) := by
  constructor
  · rintro ⟨p, hp, t, hlook, hne⟩
    have herrs : ¬ (sd_shape_errors m sd).isEmpty = true := by
      rw [List.isEmpty_iff, sd_shape_errors, List.filterMap_eq_nil_iff]
      intro hall
      have := hall p hp
      rw [hlook] at this
      simp only [hne, if_false] at this
      exact Option.some_ne_none _ this
    simp [load_state_dict, herrs]
  · intro hall
    have herrs : (sd_shape_errors m sd).isEmpty = true := by
      rw [List.isEmpty_iff, sd_shape_errors, List.filterMap_eq_nil_iff]
      intro p hp
      obtain ⟨t, hlook, hsh⟩ := hall p hp
      rw [hlook]
      simp [hsh]
    exact ⟨by simp [load_state_dict, herrs], state_dict_set_params m sd⟩

/-- A concrete two-layer network used to witness the checkpoint claims. -/
def demo_model : Network :=
  ⟨1, 1, [⟨1, 1, ⟨[1, 1], [5]⟩, ⟨[1], [7]⟩⟩], ⟨1, 1, ⟨[1, 1], [9]⟩, ⟨[1], [11]⟩⟩⟩

/-- A checkpoint state dict with the wrong dimensions for `demo_model`. -/
def demo_bad_sd : List (PKey × Tensor) :=
  [(PKey.hweight 0, ⟨[2, 1], [0, 0]⟩), (PKey.hbias 0, ⟨[2], [0, 0]⟩),
    (PKey.oweight, ⟨[1, 2], [0, 0]⟩), (PKey.obias, ⟨[1], [0]⟩)]

/-- Witness for C5: loading a mismatched state dict into `demo_model` raises
the shape error, and loading its own state dict succeeds. -/
theorem load_state_dict_spec_witness :
    load_state_dict demo_model demo_bad_sd =
      Except.error "RuntimeError: Error(s) in loading state_dict for Network" ∧
    (load_state_dict demo_model (state_dict demo_model) =
        Except.ok (set_params demo_model (state_dict demo_model)) ∧
      state_dict (set_params demo_model (state_dict demo_model)) =
        (state_dict demo_model).map
          (fun q => (q.1, ((state_dict demo_model).lookup q.1).getD q.2))) :=
  ⟨(load_state_dict_spec demo_model demo_bad_sd).1
      ⟨(PKey.hweight 0, ⟨[1, 1], [5]⟩), by decide, ⟨[2, 1], [0, 0]⟩, by decide, by decide⟩,
    (load_state_dict_spec demo_model (state_dict demo_model)).2
      (by
        intro p hp
        rw [show state_dict demo_model =
          [(PKey.hweight 0, ⟨[1, 1], [5]⟩), (PKey.hbias 0, ⟨[1], [7]⟩),
            (PKey.oweight, ⟨[1, 1], [9]⟩), (PKey.obias, ⟨[1], [11]⟩)] from rfl] at hp
        fin_cases hp <;> exact ⟨_, rfl, rfl⟩)⟩

/-- Every key in the hidden part of a state dict is a hidden-layer key with
index at least the starting index. -/
theorem mem_hidden_sd_key :
    ∀ (ls : List Linear) (k : ℕ) (p : PKey × Tensor), p ∈ hidden_sd k ls →
      ∃ i, k ≤ i ∧ (p.1 = PKey.hweight i ∨ p.1 = PKey.hbias i) := by
  intro ls
  induction ls with
  | nil => intro k p hp; simp [hidden_sd] at hp
  | cons lin ls ih =>
    intro k p hp
    rcases (by simpa [hidden_sd] using hp :
        p = (PKey.hweight k, lin.weight) ∨ p = (PKey.hbias k, lin.bias) ∨
          p ∈ hidden_sd (k + 1) ls) with rfl | rfl | hmem
    · exact ⟨k, le_refl k, Or.inl rfl⟩
    · exact ⟨k, le_refl k, Or.inr rfl⟩
    · obtain ⟨i, hi, hkey⟩ := ih (k + 1) p hmem
      exact ⟨i, Nat.le_of_succ_le hi, hkey⟩

/-- The parameter names of the hidden part of a state dict are distinct. -/
theorem hidden_sd_keys_nodup :
    ∀ (ls : List Linear) (k : ℕ), ((hidden_sd k ls).map Prod.fst).Nodup := by
  intro ls
  induction ls with
  | nil => intro k; simp [hidden_sd]
  | cons lin ls ih =>
    intro k
    simp only [hidden_sd, List.map_cons, List.nodup_cons, List.mem_cons]
    refine ⟨?_, ?_, ih (k + 1)⟩
    · rintro (hcon | hcon)
      · exact PKey.noConfusion hcon
      · obtain ⟨q, hq, hkey⟩ := List.mem_map.mp hcon
        obtain ⟨i, hi, hik⟩ := mem_hidden_sd_key ls (k + 1) q hq
        rcases hik with h | h <;> rw [h] at hkey
        · cases hkey; omega
        · exact PKey.noConfusion hkey
    · intro hcon
      obtain ⟨q, hq, hkey⟩ := List.mem_map.mp hcon
      obtain ⟨i, hi, hik⟩ := mem_hidden_sd_key ls (k + 1) q hq
      rcases hik with h | h <;> rw [h] at hkey
      · exact PKey.noConfusion hkey
      · cases hkey; omega

/-- All parameter names of a state dict are distinct. -/
theorem state_dict_keys_nodup (m : Network) :
    ((state_dict m).map Prod.fst).Nodup := by
  rw [state_dict, List.map_append]
  refine (hidden_sd_keys_nodup m.hidden_layers 0).append (by simp) ?_
  intro a ha hb
  obtain ⟨q, hq, rfl⟩ := List.mem_map.mp ha
  obtain ⟨i, -, hik⟩ := mem_hidden_sd_key m.hidden_layers 0 q hq
  rcases hik with h | h <;> rw [h] at hb <;> simp at hb

/-- In an association list whose keys and value shapes coincide with a
reference list's and whose keys are distinct, every reference entry is found
by lookup with the reference shape. -/
theorem lookup_shape_of_keyshape_eq :
    ∀ (sd₁ sd₂ : List (PKey × Tensor)),
      sd₁.map (fun p => (p.1, p.2.shape)) = sd₂.map (fun p => (p.1, p.2.shape)) →
      ((sd₂.map Prod.fst).Nodup) →
      ∀ p ∈ sd₁, ∃ t, sd₂.lookup p.1 = some t ∧ t.shape = p.2.shape := by
  intro sd₁
  induction sd₁ with
  | nil => intro sd₂ _ _ p hp; simp at hp
  | cons a sd₁ ih =>
    intro sd₂ hks hnd p hp
    cases sd₂ with
    | nil => simp at hks
    | cons b sd₂ =>
      simp only [List.map_cons, List.cons.injEq, Prod.mk.injEq] at hks
      obtain ⟨⟨hab, hshape⟩, htail⟩ := hks
      simp only [List.map_cons, List.nodup_cons] at hnd
      rcases List.mem_cons.mp hp with rfl | hmem
      · refine ⟨b.2, ?_, hshape.symm⟩
        simp [List.lookup, hab]
      · have hkeys : sd₁.map Prod.fst = sd₂.map Prod.fst := by
          have := congrArg (List.map Prod.fst) htail
          simpa [List.map_map, Function.comp_def] using this
        have hpmem : p.1 ∈ sd₂.map Prod.fst := by
          rw [← hkeys]
          exact List.mem_map.mpr ⟨p, hmem, rfl⟩
        have hneq : p.1 ≠ b.1 := fun hcon => hnd.1 (hcon ▸ hpmem)
        obtain ⟨t, hl, hs⟩ := ih sd₂ htail hnd.2 p hmem
        exact ⟨t, by simp [List.lookup, beq_eq_false_iff_ne.mpr hneq, hl], hs⟩

/-- A freshly built network has one hidden layer per requested width. -/
theorem build_hidden_length (i o : ℕ) (ws : List ℕ) :
    (Network.build i o ws).hidden_layers.length = ws.length := by
  simp only [Network.build, List.length_map, List.length_zip, List.length_cons]
  omega

/-- The hidden-layer output widths of a freshly built network are the
requested widths, in order. -/
theorem build_widths (o : ℕ) :
    ∀ (ws : List ℕ) (i : ℕ),
      (Network.build i o ws).hidden_layers.map Linear.out_features = ws := by
  intro ws
  induction ws with
  | nil => intro i; rfl
  | cons w ws ih =>
    intro i
    have htail := ih w
    simp only [Network.build, List.zip_cons_cons, List.map_cons, mkLinear] at htail ⊢
    exact congrArg (w :: ·) htail

/-- Copying parameters does not change the layers' architecture fields. -/
theorem set_hidden_out_features :
    ∀ (ls : List Linear) (k : ℕ) (sd : List (PKey × Tensor)),
      (set_hidden k ls sd).map Linear.out_features = ls.map Linear.out_features := by
  intro ls
  induction ls with
  | nil => intro k sd; rfl
  | cons lin ls ih =>
    intro k sd
    simp only [set_hidden, List.map_cons, ih (k + 1)]

/-- Parameter entries with a layer index below every index the copy will
look up are never consulted. -/
theorem set_hidden_skip :
    ∀ (ls : List Linear) (k' : ℕ) {k : ℕ} (w b : Tensor)
      (sd : List (PKey × Tensor)), k < k' →
      set_hidden k' ls ((PKey.hweight k, w) :: (PKey.hbias k, b) :: sd) =
        set_hidden k' ls sd := by
  intro ls
  induction ls with
  | nil => intro k' k w b sd _; rfl
  | cons lin ls ih =>
    intro k' k w b sd hk
    have hw : (PKey.hweight k' == PKey.hweight k) = false := by
      rw [beq_eq_false_iff_ne]
      intro hcon; cases hcon; omega
    have hwb : (PKey.hweight k' == PKey.hbias k) = false := by
      rw [beq_eq_false_iff_ne]; exact fun hcon => PKey.noConfusion hcon
    have hbw : (PKey.hbias k' == PKey.hweight k) = false := by
      rw [beq_eq_false_iff_ne]; exact fun hcon => PKey.noConfusion hcon
    have hb : (PKey.hbias k' == PKey.hbias k) = false := by
      rw [beq_eq_false_iff_ne]
      intro hcon; cases hcon; omega
    simp only [set_hidden, List.lookup, hw, hwb, hbw, hb]
    exact congrArg _ (ih (k' + 1) w b sd (Nat.lt_succ_of_lt hk))

/-- Copying a state dict whose hidden part was produced from `ls` onto any
layer list of the same length restores exactly the tensors of `ls`. -/
theorem set_hidden_hidden_sd :
    ∀ (ls' ls : List Linear) (rest : List (PKey × Tensor)) (k : ℕ),
      ls'.length = ls.length →
      hidden_sd k (set_hidden k ls' (hidden_sd k ls ++ rest)) = hidden_sd k ls := by
  intro ls'
  induction ls' with
  | nil =>
    intro ls rest k hlen
    cases ls with
    | nil => rfl
    | cons lin ls => simp at hlen
  | cons lin' ls' ih =>
    intro ls rest k hlen
    cases ls with
    | nil => simp at hlen
    | cons lin ls =>
      simp only [List.length_cons, Nat.succ.injEq] at hlen
      have hwb : (PKey.hbias k == PKey.hweight k) = false := by
        rw [beq_eq_false_iff_ne]; exact fun hcon => PKey.noConfusion hcon
      show hidden_sd k
        (⟨lin'.in_features, lin'.out_features,
          (((PKey.hweight k, lin.weight) :: (PKey.hbias k, lin.bias) ::
            (hidden_sd (k + 1) ls ++ rest)).lookup (PKey.hweight k)).getD lin'.weight,
          (((PKey.hweight k, lin.weight) :: (PKey.hbias k, lin.bias) ::
            (hidden_sd (k + 1) ls ++ rest)).lookup (PKey.hbias k)).getD lin'.bias⟩ ::
          set_hidden (k + 1) ls' ((PKey.hweight k, lin.weight) ::
            (PKey.hbias k, lin.bias) :: (hidden_sd (k + 1) ls ++ rest))) = _
      rw [set_hidden_skip ls' (k + 1) lin.weight lin.bias _ (Nat.lt_succ_self k)]
      simp only [List.lookup, beq_self_eq_true, hwb, Option.getD_some]
      simp only [hidden_sd, ih ls rest (k + 1) hlen]

/-- Looking up an output-layer key skips the whole hidden part of a state
dict. -/
theorem lookup_output_skip_hidden (key : PKey)
    (hkey : ∀ i, key ≠ PKey.hweight i ∧ key ≠ PKey.hbias i) :
    ∀ (ls : List Linear) (k : ℕ) (rest : List (PKey × Tensor)),
      (hidden_sd k ls ++ rest).lookup key = rest.lookup key := by
  intro ls
  induction ls with
  | nil => intro k rest; rfl
  | cons lin ls ih =>
    intro k rest
    have hw : (key == PKey.hweight k) = false :=
      beq_eq_false_iff_ne.mpr (hkey k).1
    have hb : (key == PKey.hbias k) = false :=
      beq_eq_false_iff_ne.mpr (hkey k).2
    simp only [hidden_sd, List.cons_append, List.lookup, hw, hb]
    exact ih (k + 1) rest

/-- C3: round trip of the checkpoint — saving a well-formed model's
checkpoint (`input_size`, `output_size`, ordered hidden widths and state
dict) and calling `load_checkpoint` on the saved file yields a model with
the identical architecture (input size, output size, hidden widths in
order) and the identical parameter values. -/
theorem checkpoint_roundtrip (m : Network) (h : WellFormed m) :
    ∃ m', load_checkpoint (torch_save (checkpoint m)) = Except.ok m' ∧
      m'.input_size = m.input_size ∧ m'.output_size = m.output_size ∧
      m'.hidden_layers.map Linear.out_features =
        m.hidden_layers.map Linear.out_features ∧
      state_dict m' = state_dict m := by
  have hlk := lookup_shape_of_keyshape_eq
    (state_dict (Network.build m.input_size m.output_size
      (m.hidden_layers.map Linear.out_features))) (state_dict m) h
    (state_dict_keys_nodup m)
  obtain ⟨hok, -⟩ := (load_state_dict_spec (Network.build m.input_size
    m.output_size (m.hidden_layers.map Linear.out_features)) (state_dict m)).2 hlk
  refine ⟨_, hok, rfl, rfl, ?_, ?_⟩
  · show (set_hidden 0 (Network.build m.input_size m.output_size
      (m.hidden_layers.map Linear.out_features)).hidden_layers
        (state_dict m)).map Linear.out_features = _
    rw [set_hidden_out_features, build_widths]
  · have hlen : (Network.build m.input_size m.output_size
        (m.hidden_layers.map Linear.out_features)).hidden_layers.length =
        m.hidden_layers.length := by
      rw [build_hidden_length, List.length_map]
    have how := lookup_output_skip_hidden PKey.oweight
      (fun i => ⟨fun hcon => PKey.noConfusion hcon, fun hcon => PKey.noConfusion hcon⟩)
      m.hidden_layers 0 [(PKey.oweight, m.output.weight), (PKey.obias, m.output.bias)]
    have hob := lookup_output_skip_hidden PKey.obias
      (fun i => ⟨fun hcon => PKey.noConfusion hcon, fun hcon => PKey.noConfusion hcon⟩)
      m.hidden_layers 0 [(PKey.oweight, m.output.weight), (PKey.obias, m.output.bias)]
    show hidden_sd 0 (set_hidden 0 _ (state_dict m)) ++
      [(PKey.oweight, ((state_dict m).lookup PKey.oweight).getD _),
        (PKey.obias, ((state_dict m).lookup PKey.obias).getD _)] = state_dict m
    rw [show (state_dict m : List (PKey × Tensor)) = hidden_sd 0 m.hidden_layers ++
      [(PKey.oweight, m.output.weight), (PKey.obias, m.output.bias)] from rfl,
      set_hidden_hidden_sd _ m.hidden_layers _ 0 hlen, how, hob]
    rfl

/-- Witness for C3: the round trip on `demo_model`. -/
theorem checkpoint_roundtrip_witness :
    ∃ m', load_checkpoint (torch_save (checkpoint demo_model)) = Except.ok m' ∧
      m'.input_size = demo_model.input_size ∧
      m'.output_size = demo_model.output_size ∧
      m'.hidden_layers.map Linear.out_features =
        demo_model.hidden_layers.map Linear.out_features ∧
      state_dict m' = state_dict demo_model :=
  checkpoint_roundtrip demo_model (by unfold WellFormed; decide)

end Trading
